import Mathlib

/-!
Shallow embedding of the nakamoto p2p liveness (ping) manager
(`src/p2p/src/fsm/pingmgr.rs`) and the transaction-status ordering
(`src/p2p/src/fsm/event.rs`), with theorems checking the specification's
claims about them.

Times and durations are modelled as natural numbers of milliseconds.
The time module (`nakamoto_common::block::time`) is not part of the
sources at hand, so its arithmetic is modelled from the spec: the clock
is monotonic, `LocalTime - LocalTime` yields a (saturating, non-negative)
`LocalDuration`, matching Nat truncated subtraction.
-/

namespace Nakamoto

/-- Peer identifier: models `PeerId = net::SocketAddr`, a totally ordered
network address. -/
abbrev Addr := Nat

/-- Modelled from the spec: the injected, seedable random number
generator (`fastrand::Rng`, external to the repository).  A deterministic
stream of `u64` values: `seq` gives the raw stream, `idx` the position. -/
structure Rng where
  seq : Nat → Nat
  idx : Nat

/-- Drawing `rng.u64(..)`: returns the next value of the stream, reduced
to the `u64` range, and the advanced generator. -/
def Rng.draw (r : Rng) : Nat × Rng :=
  (r.seq r.idx % 2 ^ 64, ⟨r.seq, r.idx + 1⟩)

/-- The subset of `NetworkMessage` the ping manager matches on
(`Ping`, `Pong`); every other wire message is `other` and is ignored by
the manager's `received_event` wildcard arm. -/
inductive NetworkMessage where
  | ping (nonce : Nat)
  | pong (nonce : Nat)
  | other
deriving DecidableEq, Repr

/-- Modelled from the spec: `DisconnectReason` (defined outside the given
sources).  The ping manager only uses the peer-timeout reason tagged with
the originating subsystem name (`PeerTimeout("ping")`). -/
inductive DisconnectReason where
  | peerTimeout (tag : String)
  | otherReason
deriving DecidableEq, Repr

/-- Modelled from the spec: the `Io` effect vocabulary —
`send(peer, message)`, `set_timer(duration)`, `disconnect(peer, reason)`. -/
inductive Io where
  | send (peer : Addr) (msg : NetworkMessage)
  | setTimer (duration : Nat)
  | disconnect (peer : Addr) (reason : DisconnectReason)
deriving DecidableEq, Repr

/-- The liveness `State` of a peer: `AwaitingPong { nonce, since }` or
`Idle { since }` (pingmgr.rs, lines 30-33). -/
inductive State where
  | awaitingPong (nonce : Nat) (since : Nat)
  | idle (since : Nat)
deriving DecidableEq, Repr

/-- Per-peer record of the ping manager: address, liveness state and the
observed round-trip latencies, newest first (pingmgr.rs, lines 35-41). -/
structure Peer where
  address : Addr
  state : State
  latencies : List Nat
deriving DecidableEq, Repr

/-- `PING_INTERVAL = LocalDuration::from_mins(2)`, in milliseconds. -/
def PING_INTERVAL : Nat := 2 * 60 * 1000

/-- `PING_TIMEOUT = LocalDuration::from_secs(60 * 10)`, in milliseconds. -/
def PING_TIMEOUT : Nat := 60 * 10 * 1000

/-- `MAX_RECORDED_LATENCIES = 64`. -/
def MAX_RECORDED_LATENCIES : Nat := 64

/-- `Peer::record_latency`: push the sample at the front and truncate to
`MAX_RECORDED_LATENCIES` (pingmgr.rs, lines 52-55). -/
def record_latency (latencies : List Nat) (sample : Nat) : List Nat :=
  (sample :: latencies).take MAX_RECORDED_LATENCIES

/-- `Peer::latency`: the sum of the recorded latencies divided by their
count (pingmgr.rs, lines 46-50).  Modelled from the spec: `LocalDuration`
division (time module not in the given sources) — the spec states the
result is the arithmetic mean of the samples, hence exact division in `ℚ`. -/
def Peer.latency (p : Peer) : ℚ :=
  (p.latencies.sum : ℚ) / (p.latencies.length : ℚ)

/-- The events the ping manager's `received_event` dispatches on
(pingmgr.rs, lines 92-111): `PeerNegotiated`, `PeerDisconnected` and
`MessageReceived`; all other `Event` variants fall to the wildcard arm,
represented by `other`.  Fields the manager ignores (`..`) are omitted. -/
inductive Event where
  | peerNegotiated (addr : Addr)
  | peerDisconnected (addr : Addr)
  | messageReceived (sender : Addr) (message : NetworkMessage)
  | other
deriving DecidableEq, Repr

/-- The ping manager state (pingmgr.rs, lines 59-67).  `peers` models the
`HashMap<PeerId, Peer>` as an association list; the clock collaborator is
modelled by passing the current time `now` to each operation. -/
structure PingManager where
  peers : List (Addr × Peer)
  ping_timeout : Nat
  rng : Rng
  outbox : List Io

/-- Association-list lookup, modelling `HashMap::get`. -/
def lookupPeer : List (Addr × Peer) → Addr → Option Peer
  | [], _ => none
  | (k, p) :: rest, a => if k = a then some p else lookupPeer rest a

/-- Association-list insert, modelling `HashMap::insert`: replaces the
value when the key is present, otherwise appends the binding. -/
def insertPeer : List (Addr × Peer) → Addr → Peer → List (Addr × Peer)
  | [], a, p => [(a, p)]
  | (k, q) :: rest, a, p =>
      if k = a then (k, p) :: rest else (k, q) :: insertPeer rest a p

/-- Association-list removal, modelling `HashMap::remove`. -/
def removePeer : List (Addr × Peer) → Addr → List (Addr × Peer)
  | [], _ => []
  | (k, q) :: rest, a => if k = a then rest else (k, q) :: removePeer rest a

/-- In-place update of the value at a key, modelling mutation through
`HashMap::get_mut`. -/
def setPeer : List (Addr × Peer) → Addr → Peer → List (Addr × Peer)
  | [], _, _ => []
  | (k, q) :: rest, a, p =>
      if k = a then (k, p) :: rest else (k, q) :: setPeer rest a p

/-- `PingManager::peer_negotiated` (pingmgr.rs, lines 114-127): draw a
fresh nonce, enqueue `ping(nonce)` to the peer, insert a fresh record in
state `AwaitingPong { nonce, since: now }` with no recorded latencies. -/
def peer_negotiated (m : PingManager) (address : Addr) (now : Nat) :
    PingManager :=
  let d := m.rng.draw
  { m with
    rng := d.2
    outbox := m.outbox ++ [Io.send address (NetworkMessage.ping d.1)]
    peers := insertPeer m.peers address
      ⟨address, State.awaitingPong d.1 now, []⟩ }

/-- `PingManager::received_ping` (pingmgr.rs, lines 167-174): when the
peer is known, enqueue `pong(nonce)` echoing the received nonce; unknown
peers are ignored. -/
def received_ping (m : PingManager) (addr : Addr) (nonce : Nat) :
    PingManager × Bool :=
  if (lookupPeer m.peers addr).isSome then
    ({ m with outbox := m.outbox ++ [Io.send addr (NetworkMessage.pong nonce)] },
     true)
  else (m, false)

/-- `PingManager::received_pong` (pingmgr.rs, lines 177-198): when the
peer is known and awaiting a pong with this exact nonce, record the
round-trip latency `now - since` and go `Idle { since: now }`; otherwise
ignore. -/
def received_pong (m : PingManager) (addr : Addr) (nonce : Nat)
    (now : Nat) : PingManager × Bool :=
  match lookupPeer m.peers addr with
  | none => (m, false)
  | some peer =>
    match peer.state with
    | State.awaitingPong last_nonce since =>
        if nonce = last_nonce then
          ({ m with
             peers := setPeer m.peers addr
               { peer with
                 latencies := record_latency peer.latencies (now - since)
                 state := State.idle now } },
           true)
        else (m, false)
    | State.idle _ => (m, false)

/-- `PingManager::received_event` (pingmgr.rs, lines 92-111). -/
def received_event (m : PingManager) (event : Event) (now : Nat) :
    PingManager :=
  match event with
  | Event.peerNegotiated addr => peer_negotiated m addr now
  | Event.peerDisconnected addr => { m with peers := removePeer m.peers addr }
  | Event.messageReceived sender message =>
      match message with
      | NetworkMessage.ping nonce => (received_ping m sender nonce).1
      | NetworkMessage.pong nonce => (received_pong m sender nonce now).1
      | NetworkMessage.other => m
  | Event.other => m

/-- One iteration of `timer_expired`'s loop body for a single peer
(pingmgr.rs, lines 133-162): returns the updated record, the generator
after any nonce draw, and the `Io` pushed for this peer. -/
def tickOne (ping_timeout now : Nat) (p : Peer) (rng : Rng) :
    Peer × Rng × List Io :=
  match p.state with
  | State.awaitingPong _ since =>
      if ping_timeout ≤ now - since then
        (p, rng,
         [Io.disconnect p.address (DisconnectReason.peerTimeout "ping")])
      else (p, rng, [])
  | State.idle since =>
      if PING_INTERVAL ≤ now - since then
        let d := rng.draw
        ({ p with state := State.awaitingPong d.1 now }, d.2,
         [Io.send p.address (NetworkMessage.ping d.1),
          Io.setTimer ping_timeout, Io.setTimer PING_INTERVAL])
      else (p, rng, [])

/-- The `for peer in self.peers.values_mut()` loop of `timer_expired`:
processes records in map order, threading the generator and
concatenating each peer's pushed `Io` in order. -/
def tickFold (ping_timeout now : Nat) :
    List (Addr × Peer) → Rng → List (Addr × Peer) × Rng × List Io
  | [], rng => ([], rng, [])
  | (k, p) :: rest, rng =>
      let s := tickOne ping_timeout now p rng
      let r := tickFold ping_timeout now rest s.2.1
      ((k, s.1) :: r.1, r.2.1, s.2.2 ++ r.2.2)

/-- `PingManager::timer_expired` (pingmgr.rs, lines 130-164). -/
def timer_expired (m : PingManager) (now : Nat) : PingManager :=
  let r := tickFold m.ping_timeout now m.peers m.rng
  { m with peers := r.1, rng := r.2.1, outbox := m.outbox ++ r.2.2 }

/-- `PingManager::new` (pingmgr.rs, lines 79-90): empty peer map, empty
outbox. -/
def PingManager.new (ping_timeout : Nat) (rng : Rng) : PingManager :=
  { peers := [], ping_timeout := ping_timeout, rng := rng, outbox := [] }

/-- Well-formedness of the peer map, guaranteed by `HashMap` and the way
records are created: keys are distinct and each record's `address` field
equals its key. -/
def WF (m : PingManager) : Prop :=
  (m.peers.map Prod.fst).Nodup ∧ ∀ e ∈ m.peers, e.2.address = e.1

instance (m : PingManager) : Decidable (WF m) := by
  unfold WF; infer_instance

/-- An `Io` addressed to peer `a`: a `send` or a `disconnect` whose peer
field is `a` (timers carry no peer). -/
def IoFor (a : Addr) : Io → Prop
  | Io.send p _ => p = a
  | Io.setTimer _ => False
  | Io.disconnect p _ => p = a

instance (a : Addr) (io : Io) : Decidable (IoFor a io) := by
  cases io <;> simp [IoFor] <;> infer_instance

/-- The per-peer invariant bound on the latency history. -/
def Inv (m : PingManager) : Prop :=
  ∀ e ∈ m.peers, e.2.latencies.length ≤ MAX_RECORDED_LATENCIES

/-- One external stimulus: an event delivery or a tick, each observed at
a clock reading `now`. -/
inductive Op where
  | ev (e : Event) (now : Nat)
  | tick (now : Nat)

/-- Apply one stimulus to the manager. -/
def applyOp (m : PingManager) : Op → PingManager
  | Op.ev e now => received_event m e now
  | Op.tick now => timer_expired m now

/-- Apply a sequence of stimuli in order. -/
def applyOps (m : PingManager) (ops : List Op) : PingManager :=
  ops.foldl applyOp m

/-! ### Block hashes, transactions and `TxStatus` (event.rs) -/

/-- Block hash: `Ord` on `BlockHash` compares the underlying bytes, a
total order; abstracted to `Nat`. -/
abbrev BlockHash := Nat

/-- Transaction: its derived `Ord` is a total order; abstracted to `Nat`. -/
abbrev Tx := Nat

/-- Transaction id: ordered hash bytes; abstracted to `Nat`. -/
abbrev Txid := Nat

/-- `TxStatus` (event.rs, lines 477-515): the transaction lifecycle
status, with `#[derive(PartialOrd, Ord)]`. -/
inductive TxStatus where
  | unconfirmed
  | acknowledged (peer : Addr)
  | confirmed (height : Nat) (block : BlockHash)
  | reverted (transaction : Tx)
  | stale (replacedBy : Txid) (block : BlockHash)
deriving DecidableEq, Repr

/-- Rust's `Ord` on integers and ordered scalars: `Less` when smaller,
`Equal` when equal, `Greater` otherwise. -/
def ncmp (x y : Nat) : Ordering :=
  if x < y then Ordering.lt else if x = y then Ordering.eq else Ordering.gt

/-- The Rust `derive(Ord)` comparison on `TxStatus`: variants compare by
declaration order, fields within a shared variant lexicographically in
declared order. -/
def TxStatus.cmp : TxStatus → TxStatus → Ordering
  | TxStatus.unconfirmed, TxStatus.unconfirmed => Ordering.eq
  | TxStatus.unconfirmed, _ => Ordering.lt
  | TxStatus.acknowledged _, TxStatus.unconfirmed => Ordering.gt
  | TxStatus.acknowledged p, TxStatus.acknowledged q => ncmp p q
  | TxStatus.acknowledged _, _ => Ordering.lt
  | TxStatus.confirmed _ _, TxStatus.unconfirmed => Ordering.gt
  | TxStatus.confirmed _ _, TxStatus.acknowledged _ => Ordering.gt
  | TxStatus.confirmed h b, TxStatus.confirmed h' b' =>
      (ncmp h h').then (ncmp b b')
  | TxStatus.confirmed _ _, _ => Ordering.lt
  | TxStatus.reverted _, TxStatus.stale _ _ => Ordering.lt
  | TxStatus.reverted t, TxStatus.reverted t' => ncmp t t'
  | TxStatus.reverted _, _ => Ordering.gt
  | TxStatus.stale r b, TxStatus.stale r' b' =>
      (ncmp r r').then (ncmp b b')
  | TxStatus.stale _ _, _ => Ordering.gt

/-- Rust `a <= b`: the comparison is `Less` or `Equal`. -/
def TxStatus.le (a b : TxStatus) : Prop := a.cmp b ≠ Ordering.gt

/-- Rust `a < b`: the comparison is `Less`. -/
def TxStatus.lt (a b : TxStatus) : Prop := a.cmp b = Ordering.lt

instance (a b : TxStatus) : Decidable (a.le b) := by
  unfold TxStatus.le; infer_instance

instance (a b : TxStatus) : Decidable (a.lt b) := by
  unfold TxStatus.lt; infer_instance

/-! ### Association-list lemmas -/

theorem lookupPeer_insert_self (l : List (Addr × Peer)) (a : Addr)
    (p : Peer) : lookupPeer (insertPeer l a p) a = some p := by
  induction l with
  | nil => simp [insertPeer, lookupPeer]
  | cons e rest ih =>
      obtain ⟨k, q⟩ := e
      by_cases h : k = a
      · simp [insertPeer, lookupPeer, h]
      · simp [insertPeer, lookupPeer, h, ih]

theorem lookupPeer_insert_ne (l : List (Addr × Peer)) (a b : Addr)
    (p : Peer) (hne : b ≠ a) :
    lookupPeer (insertPeer l a p) b = lookupPeer l b := by
  induction l with
  | nil => simp [insertPeer, lookupPeer, Ne.symm hne]
  | cons e rest ih =>
      obtain ⟨k, q⟩ := e
      by_cases h : k = a
      · subst h
        simp [insertPeer, lookupPeer, Ne.symm hne]
      · by_cases hb : k = b <;>
          simp [insertPeer, lookupPeer, h, hb, ih, hne]

theorem lookupPeer_set_self (l : List (Addr × Peer)) (a : Addr)
    (p q : Peer) (hq : lookupPeer l a = some q) :
    lookupPeer (setPeer l a p) a = some p := by
  induction l with
  | nil => simp [lookupPeer] at hq
  | cons e rest ih =>
      obtain ⟨k, r⟩ := e
      by_cases h : k = a
      · simp [setPeer, lookupPeer, h]
      · simp [lookupPeer, h] at hq
        simp [setPeer, lookupPeer, h, ih hq]

theorem lookupPeer_set_ne (l : List (Addr × Peer)) (a b : Addr)
    (p : Peer) (hne : b ≠ a) :
    lookupPeer (setPeer l a p) b = lookupPeer l b := by
  induction l with
  | nil => simp [setPeer]
  | cons e rest ih =>
      obtain ⟨k, q⟩ := e
      by_cases h : k = a
      · subst h
        simp [setPeer, lookupPeer, Ne.symm hne]
      · by_cases hb : k = b <;>
          simp [setPeer, lookupPeer, h, hb, ih, hne]

theorem mem_of_lookupPeer (l : List (Addr × Peer)) (a : Addr) (p : Peer)
    (h : lookupPeer l a = some p) : (a, p) ∈ l := by
  induction l with
  | nil => simp [lookupPeer] at h
  | cons e rest ih =>
      obtain ⟨k, q⟩ := e
      by_cases hk : k = a
      · subst hk
        simp [lookupPeer] at h
        simp [h]
      · simp [lookupPeer, hk] at h
        exact List.mem_cons_of_mem _ (ih h)

theorem mem_insertPeer (l : List (Addr × Peer)) (a : Addr) (p : Peer)
    (e : Addr × Peer) (h : e ∈ insertPeer l a p) : e ∈ l ∨ e = (a, p) := by
  induction l with
  | nil => simp [insertPeer] at h; simp [h]
  | cons f rest ih =>
      obtain ⟨k, q⟩ := f
      by_cases hk : k = a
      · subst hk
        simp [insertPeer] at h
        rcases h with h | h
        · right; simp [h]
        · left; exact List.mem_cons_of_mem _ h
      · simp [insertPeer, hk] at h
        rcases h with h | h
        · left; simp [h]
        · rcases ih h with h' | h'
          · left; exact List.mem_cons_of_mem _ h'
          · right; exact h'

theorem mem_setPeer (l : List (Addr × Peer)) (a : Addr) (p : Peer)
    (e : Addr × Peer) (h : e ∈ setPeer l a p) : e ∈ l ∨ e = (a, p) := by
  induction l with
  | nil => simp [setPeer] at h
  | cons f rest ih =>
      obtain ⟨k, q⟩ := f
      by_cases hk : k = a
      · subst hk
        simp [setPeer] at h
        rcases h with h | h
        · right; simp [h]
        · left; exact List.mem_cons_of_mem _ h
      · simp [setPeer, hk] at h
        rcases h with h | h
        · left; simp [h]
        · rcases ih h with h' | h'
          · left; exact List.mem_cons_of_mem _ h'
          · right; exact h'

theorem removePeer_sublist (l : List (Addr × Peer)) (a : Addr) :
    (removePeer l a).Sublist l := by
  induction l with
  | nil => simp [removePeer]
  | cons e rest ih =>
      obtain ⟨k, q⟩ := e
      by_cases hk : k = a
      · simp only [removePeer, if_pos hk]
        exact List.sublist_cons_self (k, q) rest
      · simpa [removePeer, hk] using List.Sublist.cons₂ (k, q) ih

theorem map_fst_insertPeer (l : List (Addr × Peer)) (a : Addr) (p : Peer) :
    (insertPeer l a p).map Prod.fst =
      if a ∈ l.map Prod.fst then l.map Prod.fst
      else l.map Prod.fst ++ [a] := by
  induction l with
  | nil => simp [insertPeer]
  | cons e rest ih =>
      obtain ⟨k, q⟩ := e
      by_cases hk : k = a
      · simp [insertPeer, hk]
      · simp only [insertPeer, if_neg hk, List.map_cons, ih]
        by_cases hmem : a ∈ rest.map Prod.fst <;>
          simp [hmem, Ne.symm hk]

theorem map_fst_setPeer (l : List (Addr × Peer)) (a : Addr) (p : Peer) :
    (setPeer l a p).map Prod.fst = l.map Prod.fst := by
  induction l with
  | nil => simp [setPeer]
  | cons e rest ih =>
      obtain ⟨k, q⟩ := e
      by_cases hk : k = a <;> simp [setPeer, hk, ih]

/-! ### Tick lemmas -/

theorem tickOne_address (t now : Nat) (p : Peer) (rng : Rng) :
    (tickOne t now p rng).1.address = p.address := by
  cases hs : p.state <;> simp [tickOne, hs] <;> split <;> simp

theorem tickOne_latencies (t now : Nat) (p : Peer) (rng : Rng) :
    (tickOne t now p rng).1.latencies = p.latencies := by
  cases hs : p.state <;> simp [tickOne, hs] <;> split <;> simp

theorem tickOne_io_mem (t now : Nat) (p : Peer) (rng : Rng) (io : Io)
    (h : io ∈ (tickOne t now p rng).2.2) :
    IoFor p.address io ∨ ∃ d, io = Io.setTimer d := by
  cases hs : p.state with
  | awaitingPong n since =>
      simp only [tickOne, hs] at h
      split at h
      · simp at h
        subst h
        left; simp [IoFor]
      · simp at h
  | idle since =>
      simp only [tickOne, hs] at h
      split at h
      · simp at h
        rcases h with h | h | h <;> subst h
        · left; simp [IoFor]
        · right; exact ⟨_, rfl⟩
        · right; exact ⟨_, rfl⟩
      · simp at h

theorem tickFold_out_not_for (t now : Nat) (a : Addr)
    (l : List (Addr × Peer)) (rng : Rng)
    (hl : ∀ e ∈ l, e.2.address ≠ a) :
    ∀ io ∈ (tickFold t now l rng).2.2, ¬ IoFor a io := by
  induction l generalizing rng with
  | nil => simp [tickFold]
  | cons e rest ih =>
      obtain ⟨k, q⟩ := e
      intro io hio
      simp [tickFold] at hio
      rcases hio with hio | hio
      · intro hfor
        rcases tickOne_io_mem t now q rng io hio with hq | ⟨d, hd⟩
        · have hqa : q.address ≠ a := hl (k, q) (by simp)
          cases io <;> simp [IoFor] at hq hfor <;> exact hqa (hq.symm ▸ hfor)
        · subst hd; simp [IoFor] at hfor
      · exact ih _ (fun e he => hl e (List.mem_cons_of_mem _ he)) io hio

theorem tickFold_map_fst (t now : Nat) (l : List (Addr × Peer))
    (rng : Rng) : (tickFold t now l rng).1.map Prod.fst = l.map Prod.fst := by
  induction l generalizing rng with
  | nil => simp [tickFold]
  | cons e rest ih =>
      obtain ⟨k, q⟩ := e
      simp [tickFold, ih]

theorem tickFold_mem (t now : Nat) (l : List (Addr × Peer)) (rng : Rng)
    (e : Addr × Peer) (he : e ∈ (tickFold t now l rng).1) :
    ∃ q, (e.1, q) ∈ l ∧ e.2.address = q.address ∧
      e.2.latencies = q.latencies := by
  induction l generalizing rng with
  | nil => simp [tickFold] at he
  | cons f rest ih =>
      obtain ⟨k, q⟩ := f
      simp [tickFold] at he
      rcases he with he | he
      · subst he
        exact ⟨q, by simp, by simp [tickOne_address],
          by simp [tickOne_latencies]⟩
      · obtain ⟨q', hq', ha', hl'⟩ := ih _ he
        exact ⟨q', List.mem_cons_of_mem _ hq', ha', hl'⟩

theorem tickFold_decomp (t now : Nat) (a : Addr) (p : Peer)
    (l : List (Addr × Peer)) (rng : Rng)
    (haddr : ∀ e ∈ l, e.2.address = e.1)
    (hnodup : (l.map Prod.fst).Nodup)
    (hlook : lookupPeer l a = some p) :
    ∃ rng1 out1 out2,
      (tickFold t now l rng).2.2 =
        out1 ++ (tickOne t now p rng1).2.2 ++ out2 ∧
      lookupPeer (tickFold t now l rng).1 a =
        some (tickOne t now p rng1).1 ∧
      (∀ io ∈ out1, ¬ IoFor a io) ∧ (∀ io ∈ out2, ¬ IoFor a io) := by
  induction l generalizing rng with
  | nil => simp [lookupPeer] at hlook
  | cons e rest ih =>
      obtain ⟨k, q⟩ := e
      have hknotin : k ∉ rest.map Prod.fst :=
        (List.nodup_cons.mp (by simpa using hnodup)).1
      have hrestnodup : (rest.map Prod.fst).Nodup :=
        (List.nodup_cons.mp (by simpa using hnodup)).2
      by_cases hk : k = a
      · subst hk
        simp [lookupPeer] at hlook
        subst hlook
        refine ⟨rng, [], (tickFold t now rest
          (tickOne t now q rng).2.1).2.2, by simp [tickFold],
          by simp [tickFold, lookupPeer], by simp, ?_⟩
        have hnot : ∀ e ∈ rest, e.2.address ≠ k := by
          intro e he hek
          exact hknotin (List.mem_map.mpr
            ⟨e, he, (haddr e (List.mem_cons_of_mem _ he)).symm.trans hek⟩)
        exact tickFold_out_not_for t now k rest _ hnot
      · simp [lookupPeer, hk] at hlook
        obtain ⟨rng1, out1, out2, hout, hlook', h1, h2⟩ :=
          ih (tickOne t now q rng).2.1
            (fun e he => haddr e (List.mem_cons_of_mem _ he))
            hrestnodup hlook
        refine ⟨rng1, (tickOne t now q rng).2.2 ++ out1, out2, ?_, ?_, ?_, h2⟩
        · simp [tickFold, hout]
        · simp [tickFold, lookupPeer, hk, hlook']
        · intro io hio
          simp at hio
          rcases hio with hio | hio
          · intro hfor
            rcases tickOne_io_mem t now q rng io hio with hq | ⟨d, hd⟩
            · have hqa : q.address = k := haddr (k, q) (by simp)
              cases io <;> simp [IoFor] at hq hfor <;>
                exact hk ((hqa ▸ hq).symm.trans hfor)
            · subst hd; simp [IoFor] at hfor
          · exact h1 io hio

theorem timer_expired_peers (m : PingManager) (now : Nat) :
    (timer_expired m now).peers =
      (tickFold m.ping_timeout now m.peers m.rng).1 := rfl

theorem timer_expired_outbox (m : PingManager) (now : Nat) :
    (timer_expired m now).outbox =
      m.outbox ++ (tickFold m.ping_timeout now m.peers m.rng).2.2 := rfl

theorem timer_expired_timeout (m : PingManager) (now : Nat) :
    (timer_expired m now).ping_timeout = m.ping_timeout := rfl

theorem count_zero_of_not_for (a : Addr) (r : DisconnectReason)
    (out : List Io) (h : ∀ io ∈ out, ¬ IoFor a io) :
    out.count (Io.disconnect a r) = 0 :=
  List.count_eq_zero.mpr fun hmem => h _ hmem (by simp [IoFor])

theorem WF_timer_expired (m : PingManager) (now : Nat) (h : WF m) :
    WF (timer_expired m now) := by
  constructor
  · rw [timer_expired_peers, tickFold_map_fst]
    exact h.1
  · intro e he
    rw [timer_expired_peers] at he
    obtain ⟨q, hq, ha, _⟩ := tickFold_mem _ _ _ _ e he
    rw [ha]
    exact h.2 (e.1, q) hq

theorem Inv_timer_expired (m : PingManager) (now : Nat) (h : Inv m) :
    Inv (timer_expired m now) := by
  intro e he
  rw [timer_expired_peers] at he
  obtain ⟨q, hq, _, hl⟩ := tickFold_mem _ _ _ _ e he
  rw [hl]
  exact h (e.1, q) hq

theorem length_record_latency (l : List Nat) (s : Nat) :
    (record_latency l s).length ≤ MAX_RECORDED_LATENCIES := by
  simp [record_latency]

theorem Inv_received_event (m : PingManager) (e : Event) (now : Nat)
    (h : Inv m) : Inv (received_event m e now) := by
  cases e with
  | peerNegotiated a =>
      intro f hf
      rcases mem_insertPeer _ _ _ _ hf with hf | hf
      · exact h f hf
      · rw [hf]
        simp [MAX_RECORDED_LATENCIES]
  | peerDisconnected a =>
      intro f hf
      exact h f ((removePeer_sublist m.peers a).mem hf)
  | messageReceived sender message =>
      cases message with
      | ping nonce =>
          intro f hf
          simp only [received_event, received_ping] at hf
          split at hf <;> exact h f hf
      | pong nonce =>
          intro f hf
          simp only [received_event, received_pong] at hf
          split at hf
          · exact h f hf
          · rename_i peer heq
            cases hs : peer.state with
            | awaitingPong ln since =>
                rw [hs] at hf
                by_cases hn : nonce = ln
                · simp only [if_pos hn] at hf
                  rcases mem_setPeer _ _ _ _ hf with hf | hf
                  · exact h f hf
                  · rw [hf]
                    exact length_record_latency _ _
                · simp only [if_neg hn] at hf
                  exact h f hf
            | idle since =>
                rw [hs] at hf
                exact h f hf
      | other =>
          intro f hf
          exact h f hf
  | other =>
      intro f hf
      exact h f hf

theorem Inv_applyOps (m : PingManager) (ops : List Op) (h : Inv m) :
    Inv (applyOps m ops) := by
  induction ops generalizing m with
  | nil => exact h
  | cons op rest ih =>
      cases op with
      | ev e now => exact ih _ (Inv_received_event m e now h)
      | tick now => exact ih _ (Inv_timer_expired m now h)

theorem Inv_new (t : Nat) (rng : Rng) : Inv (PingManager.new t rng) := by
  intro e he
  simp [PingManager.new] at he

/-- Effect of one tick on one timed-out `AwaitingPong` peer: record kept
as is, exactly one `disconnect(peer, PeerTimeout "ping")` appended. -/
theorem tick_awaiting_timeout (m : PingManager) (a : Addr) (p : Peer)
    (n since now : Nat) (hWF : WF m)
    (hp : lookupPeer m.peers a = some p)
    (hs : p.state = State.awaitingPong n since)
    (ht : m.ping_timeout ≤ now - since) :
    lookupPeer (timer_expired m now).peers a = some p ∧
    ((timer_expired m now).outbox.drop m.outbox.length).count
      (Io.disconnect a (DisconnectReason.peerTimeout "ping")) = 1 := by
  have haddr : p.address = a := hWF.2 (a, p) (mem_of_lookupPeer _ _ _ hp)
  obtain ⟨rng1, out1, out2, hout, hlook, h1, h2⟩ :=
    tickFold_decomp m.ping_timeout now a p m.peers m.rng hWF.2 hWF.1 hp
  have htick : tickOne m.ping_timeout now p rng1 =
      (p, rng1, [Io.disconnect a (DisconnectReason.peerTimeout "ping")]) := by
    simp [tickOne, hs, ht, haddr]
  constructor
  · rw [timer_expired_peers, hlook, htick]
  · rw [timer_expired_outbox, List.drop_left, hout, htick]
    simp only [List.count_append]
    rw [count_zero_of_not_for a _ out1 h1, count_zero_of_not_for a _ out2 h2]
    simp

/-- Effect of one tick on one `Idle` peer (both the due and the not-yet-due
case). -/
theorem tick_idle (m : PingManager) (a : Addr) (p : Peer)
    (since now : Nat) (hWF : WF m)
    (hp : lookupPeer m.peers a = some p)
    (hs : p.state = State.idle since) :
    (PING_INTERVAL ≤ now - since →
      ∃ nonce out1 out2,
        lookupPeer (timer_expired m now).peers a =
          some { p with state := State.awaitingPong nonce now } ∧
        (timer_expired m now).outbox.drop m.outbox.length =
          out1 ++ [Io.send a (NetworkMessage.ping nonce),
            Io.setTimer m.ping_timeout, Io.setTimer PING_INTERVAL] ++ out2 ∧
        (∀ io ∈ out1, ¬ IoFor a io) ∧ (∀ io ∈ out2, ¬ IoFor a io)) ∧
    (now - since < PING_INTERVAL →
      lookupPeer (timer_expired m now).peers a = some p ∧
      ∀ io ∈ (timer_expired m now).outbox.drop m.outbox.length,
        ¬ IoFor a io) := by
  have haddr : p.address = a := hWF.2 (a, p) (mem_of_lookupPeer _ _ _ hp)
  obtain ⟨rng1, out1, out2, hout, hlook, h1, h2⟩ :=
    tickFold_decomp m.ping_timeout now a p m.peers m.rng hWF.2 hWF.1 hp
  constructor
  · intro hdue
    have htick : tickOne m.ping_timeout now p rng1 =
        ({ p with state := State.awaitingPong (rng1.draw).1 now },
         (rng1.draw).2,
         [Io.send a (NetworkMessage.ping (rng1.draw).1),
          Io.setTimer m.ping_timeout, Io.setTimer PING_INTERVAL]) := by
      simp [tickOne, hs, hdue, haddr]
    refine ⟨(rng1.draw).1, out1, out2, ?_, ?_, h1, h2⟩
    · rw [timer_expired_peers, hlook, htick]
    · rw [timer_expired_outbox, List.drop_left, hout, htick]
  · intro hnot
    have htick : tickOne m.ping_timeout now p rng1 = (p, rng1, []) := by
      simp [tickOne, hs, Nat.not_le.mpr hnot]
    refine ⟨?_, ?_⟩
    · rw [timer_expired_peers, hlook, htick]
    · rw [timer_expired_outbox, List.drop_left, hout, htick]
      intro io hio
      simp at hio
      rcases hio with hio | hio
      · exact h1 io hio
      · exact h2 io hio

/-! ### `TxStatus` ordering lemmas -/

/-- Rank-and-fields key of a `TxStatus` value: variant rank in declaration
order, then the fields in declared order (padded with `0`). -/
def txKey : TxStatus → Nat × Nat × Nat
  | TxStatus.unconfirmed => (0, 0, 0)
  | TxStatus.acknowledged p => (1, p, 0)
  | TxStatus.confirmed h b => (2, h, b)
  | TxStatus.reverted t => (3, t, 0)
  | TxStatus.stale r b => (4, r, b)

/-- Three-component lexicographic comparison. -/
def cmp3 (x y : Nat × Nat × Nat) : Ordering :=
  ((ncmp x.1 y.1).then (ncmp x.2.1 y.2.1)).then (ncmp x.2.2 y.2.2)

theorem cmp_eq_cmp3 (a b : TxStatus) :
    a.cmp b = cmp3 (txKey a) (txKey b) := by
  cases a <;> cases b <;>
    simp [TxStatus.cmp, cmp3, txKey, ncmp, Ordering.then] <;>
    split_ifs <;> simp_all

theorem cmp3_ne_gt (x y : Nat × Nat × Nat) :
    cmp3 x y ≠ Ordering.gt ↔
      x.1 < y.1 ∨ (x.1 = y.1 ∧
        (x.2.1 < y.2.1 ∨ (x.2.1 = y.2.1 ∧ x.2.2 ≤ y.2.2))) := by
  simp only [cmp3, ncmp]
  split_ifs <;> simp [Ordering.then] <;> omega

theorem cmp3_eq_lt (x y : Nat × Nat × Nat) :
    cmp3 x y = Ordering.lt ↔
      x.1 < y.1 ∨ (x.1 = y.1 ∧
        (x.2.1 < y.2.1 ∨ (x.2.1 = y.2.1 ∧ x.2.2 < y.2.2))) := by
  simp only [cmp3, ncmp]
  split_ifs <;> simp [Ordering.then] <;> omega

theorem txKey_inj (a b : TxStatus) (h : txKey a = txKey b) : a = b := by
  cases a <;> cases b <;>
    simp only [txKey, Prod.mk.injEq] at h <;> simp_all

theorem txle_iff (a b : TxStatus) :
    a.le b ↔
      (txKey a).1 < (txKey b).1 ∨ ((txKey a).1 = (txKey b).1 ∧
        ((txKey a).2.1 < (txKey b).2.1 ∨ ((txKey a).2.1 = (txKey b).2.1 ∧
          (txKey a).2.2 ≤ (txKey b).2.2))) := by
  rw [TxStatus.le, cmp_eq_cmp3, cmp3_ne_gt]

theorem txlt_iff (a b : TxStatus) :
    a.lt b ↔
      (txKey a).1 < (txKey b).1 ∨ ((txKey a).1 = (txKey b).1 ∧
        ((txKey a).2.1 < (txKey b).2.1 ∨ ((txKey a).2.1 = (txKey b).2.1 ∧
          (txKey a).2.2 < (txKey b).2.2))) := by
  rw [TxStatus.lt, cmp_eq_cmp3, cmp3_eq_lt]

/-! ### Claim theorems -/

/-- C1: for a peer in `AwaitingPong { nonce, since }`, delivering a
`MessageReceived` event carrying `pong(nonce)` with the matching nonce
moves that peer's state to `Idle { since := now }` and appends exactly one
latency sample equal to `now - since` (at the front, within capacity). -/
theorem C1_matching_pong (m : PingManager) (a : Addr) (p : Peer)
    (n since now : Nat)
    (hp : lookupPeer m.peers a = some p)
    (hs : p.state = State.awaitingPong n since) :
    ∃ p',
      lookupPeer (received_event m
        (Event.messageReceived a (NetworkMessage.pong n)) now).peers a =
        some p' ∧
      p'.state = State.idle now ∧
      p'.latencies.head? = some (now - since) ∧
      p'.latencies.tail = p.latencies.take 63 ∧
      p'.latencies.length = min (p.latencies.length + 1) 64 := by
  refine ⟨⟨p.address, State.idle now,
      record_latency p.latencies (now - since)⟩, ?_, rfl, rfl, rfl, ?_⟩
  · simp only [received_event, received_pong, hp, hs, if_pos rfl]
    exact lookupPeer_set_self m.peers a _ p hp
  · simp only [record_latency, MAX_RECORDED_LATENCIES, List.length_take,
      List.length_cons]
    omega

theorem C1_matching_pong_witness :
    ∃ p',
      lookupPeer (received_event
        ⟨[(7, ⟨7, State.awaitingPong 42 100, [5]⟩)], 600000,
          ⟨fun i => i + 11, 0⟩, []⟩
        (Event.messageReceived 7 (NetworkMessage.pong 42)) 250).peers 7 =
        some p' ∧
      p'.state = State.idle 250 ∧
      p'.latencies.head? = some (250 - 100) ∧
      p'.latencies.tail = [5].take 63 ∧
      p'.latencies.length = min ([5].length + 1) 64 :=
  C1_matching_pong _ 7 ⟨7, State.awaitingPong 42 100, [5]⟩ 42 100 250
    (by decide) (by decide)

/-- C2: for a peer in `AwaitingPong { nonce, since }` with
`now - since ≥ ping_timeout`, a tick leaves the record unchanged and
appends exactly one `disconnect(peer, PeerTimeout "ping")`, and a further
tick at any later time appends exactly one more such disconnect. -/
theorem C2_timeout_disconnect (m : PingManager) (a : Addr) (p : Peer)
    (n since now now' : Nat) (hWF : WF m)
    (hp : lookupPeer m.peers a = some p)
    (hs : p.state = State.awaitingPong n since)
    (ht : m.ping_timeout ≤ now - since) (hnow : now ≤ now') :
    lookupPeer (timer_expired m now).peers a = some p ∧
    ((timer_expired m now).outbox.drop m.outbox.length).count
      (Io.disconnect a (DisconnectReason.peerTimeout "ping")) = 1 ∧
    ((timer_expired (timer_expired m now) now').outbox.drop
      (timer_expired m now).outbox.length).count
      (Io.disconnect a (DisconnectReason.peerTimeout "ping")) = 1 := by
  obtain ⟨h1, h2⟩ := tick_awaiting_timeout m a p n since now hWF hp hs ht
  refine ⟨h1, h2, ?_⟩
  have hWF' := WF_timer_expired m now hWF
  have ht' : (timer_expired m now).ping_timeout ≤ now' - since := by
    rw [timer_expired_timeout]
    exact le_trans ht (Nat.sub_le_sub_right hnow since)
  exact (tick_awaiting_timeout _ a p n since now' hWF' h1 hs ht').2

theorem C2_timeout_disconnect_witness :
    lookupPeer (timer_expired
      ⟨[(7, ⟨7, State.awaitingPong 42 100, [5]⟩)], 600000,
        ⟨fun i => i + 11, 0⟩, []⟩ 700100).peers 7 =
      some ⟨7, State.awaitingPong 42 100, [5]⟩ ∧
    ((timer_expired
      ⟨[(7, ⟨7, State.awaitingPong 42 100, [5]⟩)], 600000,
        ⟨fun i => i + 11, 0⟩, []⟩ 700100).outbox.drop
        (List.length ([] : List Io))).count
      (Io.disconnect 7 (DisconnectReason.peerTimeout "ping")) = 1 ∧
    ((timer_expired (timer_expired
      ⟨[(7, ⟨7, State.awaitingPong 42 100, [5]⟩)], 600000,
        ⟨fun i => i + 11, 0⟩, []⟩ 700100) 700200).outbox.drop
      (timer_expired
        ⟨[(7, ⟨7, State.awaitingPong 42 100, [5]⟩)], 600000,
          ⟨fun i => i + 11, 0⟩, []⟩ 700100).outbox.length).count
      (Io.disconnect 7 (DisconnectReason.peerTimeout "ping")) = 1 :=
  C2_timeout_disconnect _ 7 ⟨7, State.awaitingPong 42 100, [5]⟩ 42 100
    700100 700200 (by decide) (by decide) (by decide) (by decide) (by decide)

/-- C3: delivering `PeerNegotiated { addr }` draws the generator's next
nonce, enqueues exactly one `ping(nonce)` for that address (and nothing
else), and inserts a record in `AwaitingPong { nonce, since := now }`
with an empty latency history; every other peer's record is untouched. -/
theorem C3_peer_negotiated (m : PingManager) (a : Addr) (now : Nat) :
    (received_event m (Event.peerNegotiated a) now).outbox =
      m.outbox ++ [Io.send a (NetworkMessage.ping (m.rng.draw).1)] ∧
    lookupPeer (received_event m (Event.peerNegotiated a) now).peers a =
      some ⟨a, State.awaitingPong (m.rng.draw).1 now, []⟩ ∧
    (∀ b, b ≠ a →
      lookupPeer (received_event m (Event.peerNegotiated a) now).peers b =
        lookupPeer m.peers b) ∧
    (received_event m (Event.peerNegotiated a) now).rng = (m.rng.draw).2 ∧
    (received_event m (Event.peerNegotiated a) now).ping_timeout =
      m.ping_timeout := by
  refine ⟨rfl, ?_, ?_, rfl, rfl⟩
  · simp only [received_event, peer_negotiated]
    exact lookupPeer_insert_self m.peers a _
  · intro b hb
    simp only [received_event, peer_negotiated]
    exact lookupPeer_insert_ne m.peers a b _ hb

theorem C3_peer_negotiated_witness :
    (received_event
      ⟨[(3, ⟨3, State.idle 0, []⟩)], 600000, ⟨fun i => i + 11, 0⟩, []⟩
      (Event.peerNegotiated 7) 50).outbox =
      [] ++ [Io.send 7 (NetworkMessage.ping
        ((Rng.draw ⟨fun i => i + 11, 0⟩).1))] ∧
    lookupPeer (received_event
      ⟨[(3, ⟨3, State.idle 0, []⟩)], 600000, ⟨fun i => i + 11, 0⟩, []⟩
      (Event.peerNegotiated 7) 50).peers 7 =
      some ⟨7, State.awaitingPong ((Rng.draw ⟨fun i => i + 11, 0⟩).1) 50,
        []⟩ ∧
    lookupPeer (received_event
      ⟨[(3, ⟨3, State.idle 0, []⟩)], 600000, ⟨fun i => i + 11, 0⟩, []⟩
      (Event.peerNegotiated 7) 50).peers 3 =
      lookupPeer [(3, (⟨3, State.idle 0, []⟩ : Peer))] 3 := by
  obtain ⟨h1, h2, h3, _, _⟩ := C3_peer_negotiated
    ⟨[(3, ⟨3, State.idle 0, []⟩)], 600000, ⟨fun i => i + 11, 0⟩, []⟩ 7 50
  exact ⟨h1, h2, h3 3 (by decide)⟩

/-- C4: on a tick, an `Idle { since }` peer with
`now - since ≥ ping_interval` gets a freshly drawn nonce, a contiguous
`ping(nonce)` followed by a `ping_timeout` timer and a `ping_interval`
timer (and no other `Io` for that peer), and moves to
`AwaitingPong { nonce, since := now }`; with `now - since < ping_interval`
its record is unchanged and no `Io` for it is enqueued. -/
theorem C4_idle_tick (m : PingManager) (a : Addr) (p : Peer)
    (since now : Nat) (hWF : WF m)
    (hp : lookupPeer m.peers a = some p)
    (hs : p.state = State.idle since) :
    (PING_INTERVAL ≤ now - since →
      ∃ nonce out1 out2,
        lookupPeer (timer_expired m now).peers a =
          some { p with state := State.awaitingPong nonce now } ∧
        (timer_expired m now).outbox.drop m.outbox.length =
          out1 ++ [Io.send a (NetworkMessage.ping nonce),
            Io.setTimer m.ping_timeout, Io.setTimer PING_INTERVAL] ++ out2 ∧
        (∀ io ∈ out1, ¬ IoFor a io) ∧ (∀ io ∈ out2, ¬ IoFor a io)) ∧
    (now - since < PING_INTERVAL →
      lookupPeer (timer_expired m now).peers a = some p ∧
      ∀ io ∈ (timer_expired m now).outbox.drop m.outbox.length,
        ¬ IoFor a io) :=
  tick_idle m a p since now hWF hp hs

theorem C4_idle_tick_witness :
    (PING_INTERVAL ≤ 120100 - 100 →
      ∃ nonce out1 out2,
        lookupPeer (timer_expired
          ⟨[(7, ⟨7, State.idle 100, []⟩)], 600000,
            ⟨fun i => i + 11, 0⟩, []⟩ 120100).peers 7 =
          some { (⟨7, State.idle 100, []⟩ : Peer) with
            state := State.awaitingPong nonce 120100 } ∧
        (timer_expired
          ⟨[(7, ⟨7, State.idle 100, []⟩)], 600000,
            ⟨fun i => i + 11, 0⟩, []⟩ 120100).outbox.drop
          (List.length ([] : List Io)) =
          out1 ++ [Io.send 7 (NetworkMessage.ping nonce),
            Io.setTimer 600000, Io.setTimer PING_INTERVAL] ++ out2 ∧
        (∀ io ∈ out1, ¬ IoFor 7 io) ∧ (∀ io ∈ out2, ¬ IoFor 7 io)) ∧
    (120100 - 100 < PING_INTERVAL →
      lookupPeer (timer_expired
        ⟨[(7, ⟨7, State.idle 100, []⟩)], 600000,
          ⟨fun i => i + 11, 0⟩, []⟩ 120100).peers 7 =
        some ⟨7, State.idle 100, []⟩ ∧
      ∀ io ∈ (timer_expired
        ⟨[(7, ⟨7, State.idle 100, []⟩)], 600000,
          ⟨fun i => i + 11, 0⟩, []⟩ 120100).outbox.drop
        (List.length ([] : List Io)), ¬ IoFor 7 io) :=
  C4_idle_tick ⟨[(7, ⟨7, State.idle 100, []⟩)], 600000,
    ⟨fun i => i + 11, 0⟩, []⟩ 7 ⟨7, State.idle 100, []⟩ 100 120100
    (by decide) (by decide) (by decide)

/-- C5: for a peer with at least one recorded sample, `Peer::latency`
is the arithmetic mean of the retained samples — it times the sample
count gives the sample sum — and it is invariant under any permutation
of the samples (insertion order does not matter). -/
theorem C5_latency_mean (p : Peer) (h : p.latencies ≠ []) :
    p.latency * (p.latencies.length : ℚ) = (p.latencies.sum : ℚ) ∧
    ∀ q : Peer, p.latencies.Perm q.latencies → q.latency = p.latency := by
  constructor
  · have hlen : (p.latencies.length : ℚ) ≠ 0 := by
      have : p.latencies.length ≠ 0 := by
        simpa [List.length_eq_zero] using h
      exact_mod_cast this
    rw [Peer.latency, div_mul_cancel₀ _ hlen]
  · intro q hperm
    rw [Peer.latency, Peer.latency, ← hperm.sum_eq, ← hperm.length_eq]

theorem C5_latency_mean_witness :
    Peer.latency ⟨0, State.idle 0, [2, 4]⟩ *
      ((List.length [2, 4] : Nat) : ℚ) = ((List.sum [2, 4] : Nat) : ℚ) ∧
    Peer.latency ⟨1, State.idle 0, [4, 2]⟩ =
      Peer.latency ⟨0, State.idle 0, [2, 4]⟩ :=
  ⟨(C5_latency_mean ⟨0, State.idle 0, [2, 4]⟩ (by decide)).1,
   (C5_latency_mean ⟨0, State.idle 0, [2, 4]⟩ (by decide)).2
     ⟨1, State.idle 0, [4, 2]⟩ (by decide)⟩

/-- C6: starting from a fresh manager, after any sequence of events and
ticks every peer's latency history holds at most 64 samples; samples are
kept newest-first (the inserted sample becomes the head), and inserting
into a history already holding 64 samples drops its oldest (last)
sample. -/
theorem C6_bounded_history :
    (∀ (t : Nat) (rng : Rng) (ops : List Op),
      Inv (applyOps (PingManager.new t rng) ops)) ∧
    (∀ (l : List Nat) (s : Nat), (record_latency l s).head? = some s) ∧
    (∀ (l : List Nat) (s : Nat), l.length = 64 →
      record_latency l s = s :: l.dropLast) := by
  refine ⟨fun t rng ops => Inv_applyOps _ ops (Inv_new t rng),
    fun l s => rfl, ?_⟩
  intro l s hlen
  show (s :: l).take 64 = s :: l.dropLast
  rw [List.dropLast_eq_take, hlen]
  rfl

theorem C6_bounded_history_witness :
    Inv (applyOps (PingManager.new 600000 ⟨fun i => i + 11, 0⟩)
      [Op.ev (Event.peerNegotiated 7) 0, Op.tick 700000]) ∧
    (record_latency [1, 2] 9).head? = some 9 ∧
    record_latency (List.replicate 64 3) 9 =
      9 :: (List.replicate 64 3).dropLast :=
  ⟨C6_bounded_history.1 600000 ⟨fun i => i + 11, 0⟩
      [Op.ev (Event.peerNegotiated 7) 0, Op.tick 700000],
   C6_bounded_history.2.1 [1, 2] 9,
   C6_bounded_history.2.2 (List.replicate 64 3) 9 (by decide)⟩

/-- C7: the derived ordering on `TxStatus` is a total order (reflexive,
antisymmetric, transitive, total); variants are strictly ordered
`Unconfirmed < Acknowledged < Confirmed < Reverted < Stale` for all field
values; two `Confirmed` compare lexicographically by `(height, block)`,
two `Acknowledged` by peer address. -/
theorem C7_txstatus_total_order :
    (∀ a : TxStatus, a.le a) ∧
    (∀ a b : TxStatus, a.le b → b.le a → a = b) ∧
    (∀ a b c : TxStatus, a.le b → b.le c → a.le c) ∧
    (∀ a b : TxStatus, a.le b ∨ b.le a) ∧
    (∀ (p t r : Nat) (hgt : Nat) (b b' : Nat),
      TxStatus.lt TxStatus.unconfirmed (TxStatus.acknowledged p) ∧
      TxStatus.lt (TxStatus.acknowledged p) (TxStatus.confirmed hgt b) ∧
      TxStatus.lt (TxStatus.confirmed hgt b) (TxStatus.reverted t) ∧
      TxStatus.lt (TxStatus.reverted t) (TxStatus.stale r b')) ∧
    (∀ (hgt hgt' : Nat) (b b' : Nat),
      TxStatus.le (TxStatus.confirmed hgt b) (TxStatus.confirmed hgt' b') ↔
        (hgt < hgt' ∨ (hgt = hgt' ∧ b ≤ b'))) ∧
    (∀ p q : Nat,
      TxStatus.le (TxStatus.acknowledged p) (TxStatus.acknowledged q) ↔
        p ≤ q) := by
  refine ⟨?_, ?_, ?_, ?_, ?_, ?_, ?_⟩
  · intro a
    rw [txle_iff]
    omega
  · intro a b hab hba
    rw [txle_iff] at hab hba
    apply txKey_inj
    have h1 : (txKey a).1 = (txKey b).1 ∧ (txKey a).2.1 = (txKey b).2.1 ∧
        (txKey a).2.2 = (txKey b).2.2 := by omega
    exact Prod.ext_iff.mpr ⟨h1.1, Prod.ext_iff.mpr ⟨h1.2.1, h1.2.2⟩⟩
  · intro a b c hab hbc
    rw [txle_iff] at hab hbc ⊢
    omega
  · intro a b
    rw [txle_iff, txle_iff]
    omega
  · intro p t r hgt b b'
    refine ⟨?_, ?_, ?_, ?_⟩ <;> rw [txlt_iff] <;> simp [txKey]
  · intro hgt hgt' b b'
    simp only [TxStatus.le, TxStatus.cmp, ncmp]
    split_ifs <;> simp [Ordering.then] <;> omega
  · intro p q
    simp only [TxStatus.le, TxStatus.cmp, ncmp]
    split_ifs <;> simp [Ordering.then] <;> omega

theorem C7_txstatus_total_order_witness :
    TxStatus.le TxStatus.unconfirmed (TxStatus.confirmed 5 9) ∧
    TxStatus.acknowledged 3 = TxStatus.acknowledged 3 ∧
    (TxStatus.le (TxStatus.confirmed 4 9) (TxStatus.confirmed 5 2) ↔
      (4 < 5 ∨ (4 = 5 ∧ 9 ≤ 2))) :=
  ⟨C7_txstatus_total_order.2.2.1 TxStatus.unconfirmed
      (TxStatus.acknowledged 3) (TxStatus.confirmed 5 9)
      (by decide) (by decide),
   C7_txstatus_total_order.2.1 (TxStatus.acknowledged 3)
      (TxStatus.acknowledged 3) (by decide) (by decide),
   C7_txstatus_total_order.2.2.2.2.2.1 4 5 9 2⟩

/-- C8: a `pong` whose nonce differs from the outstanding nonce of an
`AwaitingPong` peer is a strict no-op: the whole manager (state, latency
history, outbox) is unchanged. -/
theorem C8_nonmatching_pong (m : PingManager) (a : Addr) (p : Peer)
    (n since nonce now : Nat)
    (hp : lookupPeer m.peers a = some p)
    (hs : p.state = State.awaitingPong n since)
    (hne : nonce ≠ n) :
    received_event m (Event.messageReceived a (NetworkMessage.pong nonce))
      now = m := by
  simp [received_event, received_pong, hp, hs, hne]

theorem C8_nonmatching_pong_witness :
    received_event
      ⟨[(7, ⟨7, State.awaitingPong 42 100, [5]⟩)], 600000,
        ⟨fun i => i + 11, 0⟩, []⟩
      (Event.messageReceived 7 (NetworkMessage.pong 43)) 200 =
      ⟨[(7, ⟨7, State.awaitingPong 42 100, [5]⟩)], 600000,
        ⟨fun i => i + 11, 0⟩, []⟩ :=
  C8_nonmatching_pong _ 7 ⟨7, State.awaitingPong 42 100, [5]⟩ 42 100 43 200
    (by decide) (by decide) (by decide)

/-- C9: an inbound `ping(n)` from a known peer enqueues exactly one
`pong(n)` echoing the nonce and changes nothing else (liveness state
untouched); from an unknown peer it is silently ignored — the manager is
unchanged and no `Io` is enqueued. -/
theorem C9_ping_echo (m : PingManager) (a : Addr) (nonce now : Nat) :
    ((lookupPeer m.peers a).isSome = true →
      received_event m
        (Event.messageReceived a (NetworkMessage.ping nonce)) now =
      { m with outbox :=
          m.outbox ++ [Io.send a (NetworkMessage.pong nonce)] }) ∧
    (lookupPeer m.peers a = none →
      received_event m
        (Event.messageReceived a (NetworkMessage.ping nonce)) now = m) := by
  constructor <;> intro h <;> simp [received_event, received_ping, h]

theorem C9_ping_echo_witness :
    received_event
      ⟨[(7, ⟨7, State.idle 100, []⟩)], 600000, ⟨fun i => i + 11, 0⟩, []⟩
      (Event.messageReceived 7 (NetworkMessage.ping 5)) 200 =
      { (⟨[(7, ⟨7, State.idle 100, []⟩)], 600000, ⟨fun i => i + 11, 0⟩,
          []⟩ : PingManager) with outbox :=
          [] ++ [Io.send 7 (NetworkMessage.pong 5)] } ∧
    received_event
      ⟨[(7, ⟨7, State.idle 100, []⟩)], 600000, ⟨fun i => i + 11, 0⟩, []⟩
      (Event.messageReceived 9 (NetworkMessage.ping 5)) 200 =
      ⟨[(7, ⟨7, State.idle 100, []⟩)], 600000, ⟨fun i => i + 11, 0⟩, []⟩ :=
  ⟨(C9_ping_echo ⟨[(7, ⟨7, State.idle 100, []⟩)], 600000,
      ⟨fun i => i + 11, 0⟩, []⟩ 7 5 200).1 (by decide),
   (C9_ping_echo ⟨[(7, ⟨7, State.idle 100, []⟩)], 600000,
      ⟨fun i => i + 11, 0⟩, []⟩ 9 5 200).2 (by decide)⟩

/-- C10: delivering `PeerNegotiated` for an address that already has a
record replaces the record entirely: whatever the old state and latency
history were, the peer restarts in `AwaitingPong` with the freshly drawn
nonce and an empty history. -/
theorem C10_renegotiate_resets (m : PingManager) (a : Addr) (pOld : Peer)
    (now : Nat) (_hp : lookupPeer m.peers a = some pOld) :
    lookupPeer (received_event m (Event.peerNegotiated a) now).peers a =
      some ⟨a, State.awaitingPong (m.rng.draw).1 now, []⟩ := by
  simp only [received_event, peer_negotiated]
  exact lookupPeer_insert_self m.peers a _

theorem C10_renegotiate_resets_witness :
    lookupPeer (received_event
      ⟨[(7, ⟨7, State.awaitingPong 42 100, [5, 6]⟩)], 600000,
        ⟨fun i => i + 11, 0⟩, []⟩
      (Event.peerNegotiated 7) 300).peers 7 =
      some ⟨7, State.awaitingPong
        ((Rng.draw ⟨fun i => i + 11, 0⟩).1) 300, []⟩ :=
  C10_renegotiate_resets _ 7 ⟨7, State.awaitingPong 42 100, [5, 6]⟩ 300
    (by decide)

end Nakamoto
